import Mathlib

/-!
Verification of the BabyBear prime-field engine (`src/baby-bear/src/baby_bear.rs`)
and the uni-plonk verifier (`src/uni-plonk/src/verifier.rs`).

Machine integers are embedded as `Nat` with explicit `% 2^w` at every point where
the Rust code wraps or truncates; `x & MONTY_MASK` is written `x % 2^31`,
`x >> MONTY_BITS` is written `x / 2^31`, `x << 31` is written `x * 2^31`.
-/

namespace BabyBearSpec

/-- `P = 0x78000001 = 2^31 - 2^27 + 1`, the BabyBear prime modulus. -/
def P : Nat := 0x78000001

/-- `MONTY_BITS = 31`. -/
def MONTY_BITS : Nat := 31

/-- `MONTY_MASK = 2^31 - 1`. -/
def MONTY_MASK : Nat := 2 ^ MONTY_BITS - 1

/-- `MONTY_MU = 0x8000001`, the inverse of `P` modulo `2^31`. -/
def MONTY_MU : Nat := 0x8000001

/-- Fuel-driven binary modular exponentiation, used only to certify concrete
powers (primality certificate, two-adicity checks) by kernel computation. -/
def powModAux (n : Nat) : Nat → Nat → Nat → Nat
  | _, 0, _ => 1 % n
  | a, fuel + 1, e =>
    if e = 0 then 1 % n
    else
      let h := powModAux n (a * a % n) fuel (e / 2)
      if e % 2 = 1 then a * h % n else h

/-- `powMod n a e` computes `a ^ e % n` in `O(log e)` kernel steps. -/
def powMod (n a e : Nat) : Nat := powModAux n a e e

theorem mul_mod_cancel (a x n : Nat) : a * (x % n) % n = a * x % n := by
  rw [Nat.mul_mod, Nat.mod_mod_of_dvd _ dvd_rfl, ← Nat.mul_mod]

theorem powModAux_spec (n : Nat) : ∀ fuel a e, e < 2 ^ fuel →
    powModAux n a fuel e = a ^ e % n := by
  intro fuel
  induction fuel with
  | zero =>
    intro a e he
    have he0 : e = 0 := by simpa using he
    subst he0
    simp [powModAux]
  | succ fuel ih =>
    intro a e he
    by_cases h0 : e = 0
    · simp [powModAux, h0]
    · have h2 : (2 : Nat) ^ (fuel + 1) = 2 * 2 ^ fuel := by
        rw [pow_succ]; ring
      have hdiv : e / 2 < 2 ^ fuel := by omega
      have hrec := ih (a * a % n) (e / 2) hdiv
      have hmod : (a * a % n) ^ (e / 2) % n = (a * a) ^ (e / 2) % n := by
        rw [← Nat.pow_mod]
      by_cases hpar : e % 2 = 1
      · have hae : a * (a * a) ^ (e / 2) = a ^ e := by
          conv_rhs => rw [show e = 2 * (e / 2) + 1 by omega]
          rw [pow_add, pow_mul, pow_one, pow_two]
          ring
        simp only [powModAux, if_neg h0, if_pos hpar, hrec, hmod,
          mul_mod_cancel, hae]
      · have hae : (a * a) ^ (e / 2) = a ^ e := by
          conv_rhs => rw [show e = 2 * (e / 2) by omega]
          rw [pow_mul, pow_two]
        simp only [powModAux, if_neg h0, if_neg hpar, hrec, hmod, hae]

theorem powMod_spec (n a e : Nat) : powMod n a e = a ^ e % n :=
  powModAux_spec n e a e (Nat.lt_two_pow e)

instance : NeZero P := ⟨by decide⟩

theorem zmod_natCast_pow_eq (n a e : Nat) :
    ((a : ZMod n)) ^ e = ((powMod n a e : Nat) : ZMod n) := by
  rw [powMod_spec, ZMod.natCast_mod, Nat.cast_pow]

/-- The prime factors of `P - 1 = 2^27 * 3 * 5` are 2, 3 and 5. -/
theorem prime_dvd_P_sub_one (q : Nat) (hq : q.Prime) (hd : q ∣ P - 1) :
    q = 2 ∨ q = 3 ∨ q = 5 := by
  have h : P - 1 = 2 ^ 27 * (3 * 5) := by decide
  rw [h] at hd
  rcases (Nat.Prime.dvd_mul hq).mp hd with h2 | h35
  · exact Or.inl ((Nat.prime_dvd_prime_iff_eq hq Nat.prime_two).mp
      (Nat.Prime.dvd_of_dvd_pow hq h2))
  · rcases (Nat.Prime.dvd_mul hq).mp h35 with h3 | h5
    · exact Or.inr (Or.inl ((Nat.prime_dvd_prime_iff_eq hq Nat.prime_three).mp h3))
    · exact Or.inr (Or.inr ((Nat.prime_dvd_prime_iff_eq hq (by norm_num)).mp h5))

/-- `P = 2013265921` is prime, certified by a Lucas certificate with witness 31
(the multiplicative group generator exposed by the source). -/
theorem P_prime : Nat.Prime P := by
  apply lucas_primality P ((31 : Nat) : ZMod P)
  · rw [zmod_natCast_pow_eq]
    norm_num [show powMod P 31 (P - 1) = 1 from by decide]
  · intro q hq hd
    rw [zmod_natCast_pow_eq]
    intro hcontra
    rw [← Nat.cast_one] at hcontra
    have hmeq := (ZMod.natCast_eq_natCast_iff _ _ _).mp hcontra
    rcases prime_dvd_P_sub_one q hq hd with rfl | rfl | rfl
    · exact absurd hmeq (by decide)
    · exact absurd hmeq (by decide)
    · exact absurd hmeq (by decide)

instance : Fact (Nat.Prime P) := ⟨P_prime⟩

/-! ## Word-level functions of `baby_bear.rs` -/

/-- `canonical_sub(x, y)`: wrapping u32 subtraction; if the subtraction
underflowed, wrapping-add `P` back. -/
def canonical_sub (x y : Nat) : Nat :=
  if x < y then (x + 2 ^ 32 - y + P) % 2 ^ 32 else x - y

/-- `to_monty(x)`: `(((x as u64) << 31) % P as u64) as u32` for a u32 input. -/
def to_monty (x : Nat) : Nat := (x % 2 ^ 32) * 2 ^ MONTY_BITS % P

/-- `to_monty_64(x)`: `(((x as u128) << 31) % P as u128) as u32` for a u64 input. -/
def to_monty_64 (x : Nat) : Nat := (x % 2 ^ 64) * 2 ^ MONTY_BITS % P

/-- `monty_split_double(x)`: split a width-62 value into `(lo, hi)` 31-bit parts.
`x as u32 & MONTY_MASK` is `x % 2^32 % 2^31`; `(x >> MONTY_BITS) as u32` is
`x / 2^31 % 2^32`. -/
def monty_split_double (x : Nat) : Nat × Nat :=
  (x % 2 ^ 32 % 2 ^ MONTY_BITS, x / 2 ^ MONTY_BITS % 2 ^ 32)

/-- `monty_mul_lo(x, y)`: `x.wrapping_mul(y) & MONTY_MASK`. -/
def monty_mul_lo (x y : Nat) : Nat := x * y % 2 ^ 32 % 2 ^ MONTY_BITS

/-- `monty_mul_hi(x, y)`: `((x as u64 * y as u64) >> MONTY_BITS) as u32`. -/
def monty_mul_hi (x y : Nat) : Nat := x * y / 2 ^ MONTY_BITS % 2 ^ 32

/-- `monty_reduce(x)`: Montgomery reduction of a value in `0..P << MONTY_BITS`. -/
def monty_reduce (x : Nat) : Nat :=
  let xs := monty_split_double x
  let t := monty_mul_lo MONTY_MU xs.1
  let u := monty_mul_hi t P
  canonical_sub xs.2 u

/-- `from_monty(x)`: `monty_reduce(x as u64)` for a u32 input. -/
def from_monty (x : Nat) : Nat := monty_reduce x

/-! ## The `BabyBear` struct and its operations -/

/-- The `BabyBear` struct: a single u32 Montgomery word. -/
structure BabyBear where
  value : Nat
deriving DecidableEq

/-- `BabyBear::ZERO`. -/
def ZERO : BabyBear := ⟨0⟩

/-- `BabyBear::ONE`. -/
def ONE : BabyBear := ⟨0x7ffffff⟩

/-- `BabyBear::TWO`. -/
def TWO : BabyBear := ⟨0xffffffe⟩

/-- `BabyBear::NEG_ONE`. -/
def NEG_ONE : BabyBear := ⟨0x70000002⟩

/-- `Add::add`: raw sum, subtracting `P` once if the sum reached `P`. -/
def add (a b : BabyBear) : BabyBear :=
  let sum := a.value + b.value
  if sum ≥ P then ⟨sum - P⟩ else ⟨sum⟩

/-- `Sub::sub`. -/
def sub (a b : BabyBear) : BabyBear := ⟨canonical_sub a.value b.value⟩

/-- `Neg::neg`. -/
def neg (a : BabyBear) : BabyBear := ⟨canonical_sub 0 a.value⟩

/-- `Mul::mul`: double-width product followed by Montgomery reduction. -/
def mul (a b : BabyBear) : BabyBear := ⟨monty_reduce (a.value * b.value)⟩

/-- `Sum::sum`: `iter.reduce(|x, y| x + y).unwrap_or(ZERO)`. -/
def sumList (l : List BabyBear) : BabyBear :=
  match l with
  | [] => ZERO
  | x :: xs => xs.foldl add x

/-- `Product::product`: `iter.reduce(|x, y| x * y).unwrap_or(ONE)`. -/
def prodList (l : List BabyBear) : BabyBear :=
  match l with
  | [] => ONE
  | x :: xs => xs.foldl mul x

/-- `from_wrapped_u32`. -/
def from_wrapped_u32 (n : Nat) : BabyBear := ⟨to_monty n⟩

/-- `from_wrapped_u64`. -/
def from_wrapped_u64 (n : Nat) : BabyBear := ⟨to_monty_64 n⟩

/-- `from_canonical_u32`: same computation as `from_wrapped_u32`; the
`debug_assert!(n < P)` precondition appears as a hypothesis of the theorems. -/
def from_canonical_u32 (n : Nat) : BabyBear := from_wrapped_u32 n

/-- `as_canonical_u32`. -/
def as_canonical_u32 (a : BabyBear) : Nat := from_monty a.value

/-- Modelled from the spec: `AbstractField::is_zero` (a `p3_field` trait default
not under `src/`) compares against `ZERO`; equality is the derived word
equality, and `ZERO` stores the word 0. -/
def is_zero (a : BabyBear) : Bool := a.value == 0

/-- Modelled from the spec: `AbstractField::square` (a `p3_field` trait default
not under `src/`) is `self * self`; the addition chain of `try_inverse` is
built from squarings and multiplications. -/
def square (a : BabyBear) : BabyBear := mul a a

/-- Modelled from the spec: `AbstractField::exp_power_of_2` (a `p3_field` trait
default not under `src/`) squares its argument `k` times. -/
def exp_power_of_2 (a : BabyBear) : Nat → BabyBear
  | 0 => a
  | k + 1 => square (exp_power_of_2 a k)

/-- `Field::try_inverse`: `None` on zero, otherwise `a^(P-2)` by the fixed
addition chain of the source. -/
def try_inverse (a : BabyBear) : Option BabyBear :=
  if is_zero a then none
  else
    let x1 := a
    let x2 := square x1
    let x3 := mul x1 x2
    let x6 := mul x3 x3
    let x7 := mul x1 x6
    let x56 := exp_power_of_2 x7 3
    let x63 := mul x7 x56
    let x4032 := exp_power_of_2 x63 6
    let x4095 := mul x63 x4032
    let x8190 := square x4095
    let x12285 := mul x4095 x8190
    let x24570 := square x12285
    let x28665 := mul x4095 x24570
    let x28672 := mul x7 x28665
    let x32767 := mul x4095 x28672
    let x61439 := mul x28672 x32767
    let x2013233152 := exp_power_of_2 x61439 15
    let x2013265919 := mul x32767 x2013233152
    some x2013265919

/-- Modelled from the spec: `Div::div` is `self * rhs.inverse()`, where
`Field::inverse` (a `p3_field` trait default not under `src/`) unwraps
`try_inverse`; the panic on `None` is modelled as `none` propagation. -/
def div (a b : BabyBear) : Option BabyBear :=
  (try_inverse b).map (fun binv => mul a binv)

/-- `Distribution<BabyBear>::sample`: the rejection-sampling loop over a stream
of u32 draws, embedded with explicit fuel; `rng.next_u32() & 0x7ffffff` is
`stream i % 2^32 % 0x8000000`. -/
def sample_loop (stream : Nat → Nat) : Nat → Nat → Option BabyBear
  | _, 0 => none
  | i, fuel + 1 =>
    let next_u31 := stream i % 2 ^ 32 % 0x8000000
    if next_u31 < P then some ⟨next_u31⟩ else sample_loop stream (i + 1) fuel

/-- `TwoAdicField::power_of_two_generator`. -/
def power_of_two_generator : BabyBear := from_canonical_u32 0x1a427a41

/-- Modelled from the spec: the generator of the order-`2^bits` subgroup is the
base two-adic generator raised to the power `2^(27 - bits)` (the
`TwoAdicField::two_adic_generator` default is not under `src/`). -/
def two_adic_generator (bits : Nat) : BabyBear :=
  exp_power_of_2 power_of_two_generator (27 - bits)

/-- Mathematical power in the `BabyBear` representation, used to state order
properties of the two-adic generator. -/
def bbPow (a : BabyBear) : Nat → BabyBear
  | 0 => ONE
  | n + 1 => mul a (bbPow a n)

/-! ## Semantics: the canonical residue of a word, in `ZMod P` -/

/-- The Montgomery radix `2^31` viewed in `ZMod P`. -/
def RZ : ZMod P := ((2 ^ MONTY_BITS : Nat) : ZMod P)

/-- The field element denoted by a `BabyBear` word: its canonical residue. -/
def toField (a : BabyBear) : ZMod P := ((from_monty a.value : Nat) : ZMod P)

theorem RZ_ne_zero : RZ ≠ 0 := by
  intro h
  have hval := congrArg ZMod.val h
  rw [RZ, ZMod.val_natCast, ZMod.val_zero] at hval
  exact absurd hval (by decide)

theorem canonical_sub_spec (x y : Nat) (hx : x < P) (hy : y < P) :
    canonical_sub x y < P ∧
      ((canonical_sub x y : Nat) : ZMod P) = (x : ZMod P) - (y : ZMod P) := by
  unfold canonical_sub
  by_cases h : x < y
  · rw [if_pos h]
    simp only [P] at hx hy h ⊢
    have hv : (x + 2 ^ 32 - y + 2013265921) % 2 ^ 32 = x + 2013265921 - y := by
      omega
    rw [hv]
    refine ⟨by omega, ?_⟩
    have hle : y ≤ x + 2013265921 := by omega
    rw [Nat.cast_sub hle]
    push_cast
    have hP0 : (2013265921 : ZMod P) = 0 := by
      have hself := ZMod.natCast_self P
      simp only [P] at hself
      exact_mod_cast hself
    rw [hP0]
    ring
  · rw [if_neg h]
    refine ⟨by omega, ?_⟩
    rw [Nat.cast_sub (by omega)]

theorem monty_reduce_correct (x : Nat) (hx : x < P * 2 ^ 31) :
    monty_reduce x < P ∧
      ((monty_reduce x : Nat) : ZMod P) * RZ = (x : ZMod P) := by
  have hmask : x % 2 ^ 32 % 2 ^ 31 = x % 2 ^ 31 :=
    Nat.mod_mod_of_dvd x (by norm_num)
  have hhi_lt : x / 2 ^ 31 < P := by
    exact (Nat.div_lt_iff_lt_mul (by norm_num)).mpr hx
  have hhi_mod : x / 2 ^ 31 % 2 ^ 32 = x / 2 ^ 31 :=
    Nat.mod_eq_of_lt (lt_trans hhi_lt (by norm_num [P]))
  have ht_lt : MONTY_MU * (x % 2 ^ 31) % 2 ^ 32 % 2 ^ 31 < 2 ^ 31 :=
    Nat.mod_lt _ (by norm_num)
  set t := MONTY_MU * (x % 2 ^ 31) % 2 ^ 32 % 2 ^ 31 with ht
  have hu_lt : t * P / 2 ^ 31 < P := by
    refine (Nat.div_lt_iff_lt_mul (by norm_num)).mpr ?_
    calc t * P < 2 ^ 31 * P := by
          exact (Nat.mul_lt_mul_right (by norm_num [P] : 0 < P)).mpr ht_lt
      _ = P * 2 ^ 31 := by ring
  have hu_mod : t * P / 2 ^ 31 % 2 ^ 32 = t * P / 2 ^ 31 :=
    Nat.mod_eq_of_lt (lt_trans hu_lt (by norm_num [P]))
  have hred : monty_reduce x = canonical_sub (x / 2 ^ 31) (t * P / 2 ^ 31) := by
    simp only [monty_reduce, monty_split_double, monty_mul_lo, monty_mul_hi,
      MONTY_BITS, ht, hmask, hhi_mod, hu_mod]
  have hkey : t * P % 2 ^ 31 = x % 2 ^ 31 := by
    have h1 : t % 2 ^ 31 = MONTY_MU * x % 2 ^ 31 := by
      rw [ht, Nat.mod_mod_of_dvd _ (by norm_num : (2:Nat) ^ 31 ∣ 2 ^ 32),
        mul_mod_cancel, Nat.mod_mod_of_dvd _ dvd_rfl]
    have h2 : t * P % 2 ^ 31 = MONTY_MU * x * P % 2 ^ 31 := by
      rw [Nat.mul_mod, h1, ← Nat.mul_mod]
    have h3 : MONTY_MU * x * P % 2 ^ 31 = MONTY_MU * P * x % 2 ^ 31 := by
      ring_nf
    have h4 : MONTY_MU * P * x % 2 ^ 31 = x % 2 ^ 31 := by
      rw [Nat.mul_mod, show MONTY_MU * P % 2 ^ 31 = 1 from by decide]
      simp [Nat.mod_mod_of_dvd]
    rw [h2, h3, h4]
  have hxdecomp : 2 ^ 31 * (x / 2 ^ 31) + x % 2 ^ 31 = x := Nat.div_add_mod x (2 ^ 31)
  have htP : 2 ^ 31 * (t * P / 2 ^ 31) + x % 2 ^ 31 = t * P := by
    rw [← hkey]
    exact Nat.div_add_mod (t * P) (2 ^ 31)
  obtain ⟨hcs_lt, hcs_cast⟩ := canonical_sub_spec (x / 2 ^ 31) (t * P / 2 ^ 31) hhi_lt hu_lt
  rw [hred]
  refine ⟨hcs_lt, ?_⟩
  rw [hcs_cast]
  have c1 : ((x / 2 ^ 31 : Nat) : ZMod P) * RZ
      = (x : ZMod P) - ((x % 2 ^ 31 : Nat) : ZMod P) := by
    have hc := congrArg (fun n : Nat => ((n : ZMod P))) hxdecomp
    push_cast at hc
    rw [RZ, MONTY_BITS]
    push_cast
    linear_combination hc
  have c2 : ((t * P / 2 ^ 31 : Nat) : ZMod P) * RZ
      = - ((x % 2 ^ 31 : Nat) : ZMod P) := by
    have hc := congrArg (fun n : Nat => ((n : ZMod P))) htP
    push_cast at hc
    rw [ZMod.natCast_self, mul_zero] at hc
    rw [RZ, MONTY_BITS]
    push_cast
    linear_combination hc
  rw [sub_mul, c1, c2]
  ring

theorem from_monty_lt (x : Nat) (hx : x < 2 ^ 32) : from_monty x < P :=
  (monty_reduce_correct x (by simp only [P] at *; omega)).1

theorem toField_mul_RZ (a : BabyBear) (ha : a.value < 2 ^ 32) :
    toField a * RZ = ((a.value : Nat) : ZMod P) :=
  (monty_reduce_correct a.value (by simp only [P] at *; omega)).2

theorem toField_inj (a b : BabyBear) (ha : a.value < P) (hb : b.value < P)
    (h : toField a = toField b) : a = b := by
  have h2 : toField a * RZ = toField b * RZ := by rw [h]
  rw [toField_mul_RZ a (lt_trans ha (by norm_num [P])),
    toField_mul_RZ b (lt_trans hb (by norm_num [P]))] at h2
  have hv := congrArg ZMod.val h2
  rw [ZMod.val_natCast, ZMod.val_natCast, Nat.mod_eq_of_lt ha, Nat.mod_eq_of_lt hb] at hv
  cases a; cases b
  simpa using hv

theorem toField_ZERO : toField ZERO = 0 := by
  show ((from_monty 0 : Nat) : ZMod P) = 0
  rw [show from_monty 0 = 0 from by decide]
  exact Nat.cast_zero

theorem toField_ONE : toField ONE = 1 := by
  show ((from_monty 0x7ffffff : Nat) : ZMod P) = 1
  rw [show from_monty 0x7ffffff = 1 from by decide]
  exact Nat.cast_one

theorem lt_u32_of_lt_P {v : Nat} (h : v < P) : v < 2 ^ 32 :=
  lt_trans h (by norm_num [P])

/-- `add` keeps the word below `P` and realises field addition; the source
subtracts `P` exactly when the raw sum reached `P`. -/
theorem add_spec (a b : BabyBear) (ha : a.value < P) (hb : b.value < P) :
    (add a b).value < P ∧
      ((add a b).value : ZMod P) = ((a.value : Nat) : ZMod P) + ((b.value : Nat) : ZMod P) ∧
      (add a b).value = (if P ≤ a.value + b.value then a.value + b.value - P
        else a.value + b.value) := by
  unfold add
  by_cases h : P ≤ a.value + b.value
  · simp only [ge_iff_le, if_pos h]
    refine ⟨by simp only [P] at *; omega, ?_, by trivial⟩
    rw [Nat.cast_sub h]
    push_cast
    rw [ZMod.natCast_self]
    ring
  · simp only [ge_iff_le, if_neg h]
    refine ⟨by simp only [P] at *; omega, ?_, by trivial⟩
    push_cast
    ring

theorem toField_add (a b : BabyBear) (ha : a.value < P) (hb : b.value < P) :
    toField (add a b) = toField a + toField b := by
  obtain ⟨hlt, hcast, _⟩ := add_spec a b ha hb
  apply mul_right_cancel₀ RZ_ne_zero
  rw [toField_mul_RZ _ (lt_u32_of_lt_P hlt), hcast, add_mul,
    toField_mul_RZ a (lt_u32_of_lt_P ha), toField_mul_RZ b (lt_u32_of_lt_P hb)]

/-- `sub` keeps the word below `P` and realises field subtraction; the source
adds `P` back exactly when the wrapping difference underflowed. -/
theorem sub_spec (a b : BabyBear) (ha : a.value < P) (hb : b.value < P) :
    (sub a b).value < P ∧
      ((sub a b).value : ZMod P) = ((a.value : Nat) : ZMod P) - ((b.value : Nat) : ZMod P) ∧
      (sub a b).value = (if a.value < b.value then a.value + P - b.value
        else a.value - b.value) := by
  obtain ⟨h1, h2⟩ := canonical_sub_spec a.value b.value ha hb
  refine ⟨h1, h2, ?_⟩
  show canonical_sub a.value b.value = _
  unfold canonical_sub
  by_cases h : a.value < b.value
  · rw [if_pos h, if_pos h]
    simp only [P] at *
    omega
  · rw [if_neg h, if_neg h]

theorem toField_sub (a b : BabyBear) (ha : a.value < P) (hb : b.value < P) :
    toField (sub a b) = toField a - toField b := by
  obtain ⟨hlt, hcast, _⟩ := sub_spec a b ha hb
  apply mul_right_cancel₀ RZ_ne_zero
  rw [toField_mul_RZ _ (lt_u32_of_lt_P hlt), hcast, sub_mul,
    toField_mul_RZ a (lt_u32_of_lt_P ha), toField_mul_RZ b (lt_u32_of_lt_P hb)]

theorem neg_spec (a : BabyBear) (ha : a.value < P) :
    (neg a).value < P ∧
      ((neg a).value : ZMod P) = - ((a.value : Nat) : ZMod P) ∧
      (neg a).value = (if 0 < a.value then P - a.value else 0) := by
  obtain ⟨h1, h2⟩ := canonical_sub_spec 0 a.value (by norm_num [P]) ha
  refine ⟨h1, by rw [show (neg a).value = canonical_sub 0 a.value from rfl, h2]; push_cast; ring, ?_⟩
  show canonical_sub 0 a.value = _
  unfold canonical_sub
  simp only [P] at *
  by_cases h : 0 < a.value
  · rw [if_pos h, if_pos (by omega : 0 < a.value)]
    omega
  · have hz : a.value = 0 := by omega
    simp [hz]

theorem toField_neg (a : BabyBear) (ha : a.value < P) :
    toField (neg a) = - toField a := by
  obtain ⟨hlt, hcast, _⟩ := neg_spec a ha
  apply mul_right_cancel₀ RZ_ne_zero
  rw [toField_mul_RZ _ (lt_u32_of_lt_P hlt), hcast, neg_mul,
    toField_mul_RZ a (lt_u32_of_lt_P ha)]

theorem mul_value_lt (a b : BabyBear) (ha : a.value < P) (hb : b.value < P) :
    (mul a b).value < P := by
  refine (monty_reduce_correct (a.value * b.value) ?_).1
  calc a.value * b.value < P * P := by
        exact Nat.mul_lt_mul_of_lt_of_le ha (le_of_lt hb) (by norm_num [P])
    _ ≤ P * 2 ^ 31 := Nat.mul_le_mul_left P (by norm_num [P])

theorem toField_mul (a b : BabyBear) (ha : a.value < P) (hb : b.value < P) :
    toField (mul a b) = toField a * toField b := by
  have hab : a.value * b.value < P * 2 ^ 31 := by
    calc a.value * b.value < P * P := by
          exact Nat.mul_lt_mul_of_lt_of_le ha (le_of_lt hb) (by norm_num [P])
      _ ≤ P * 2 ^ 31 := Nat.mul_le_mul_left P (by norm_num [P])
  obtain ⟨hlt, hcast⟩ := monty_reduce_correct (a.value * b.value) hab
  apply mul_right_cancel₀ RZ_ne_zero
  apply mul_right_cancel₀ RZ_ne_zero
  calc toField (mul a b) * RZ * RZ
      = ((monty_reduce (a.value * b.value) : Nat) : ZMod P) * RZ := by
        rw [toField_mul_RZ (mul a b) (lt_u32_of_lt_P hlt)]
        rfl
    _ = ((a.value * b.value : Nat) : ZMod P) := hcast
    _ = (toField a * RZ) * (toField b * RZ) := by
        rw [toField_mul_RZ a (lt_u32_of_lt_P ha), toField_mul_RZ b (lt_u32_of_lt_P hb)]
        push_cast
        ring
    _ = toField a * toField b * RZ * RZ := by ring

theorem natCast_inj_of_lt {x y : Nat} (hx : x < P) (hy : y < P)
    (h : ((x : Nat) : ZMod P) = ((y : Nat) : ZMod P)) : x = y := by
  have hv := congrArg ZMod.val h
  rw [ZMod.val_natCast, ZMod.val_natCast, Nat.mod_eq_of_lt hx, Nat.mod_eq_of_lt hy] at hv
  exact hv

theorem to_monty_lt (x : Nat) : to_monty x < P :=
  Nat.mod_lt _ (by norm_num [P])

theorem to_monty_64_lt (x : Nat) : to_monty_64 x < P :=
  Nat.mod_lt _ (by norm_num [P])

/-- The canonical residue of `from_wrapped_u64 n` is `n mod P`. -/
theorem from_wrapped_u64_canonical (n : Nat) (hn : n < 2 ^ 64) :
    as_canonical_u32 (from_wrapped_u64 n) = n % P := by
  have hv : to_monty_64 n = n * 2 ^ 31 % P := by
    unfold to_monty_64 MONTY_BITS
    rw [Nat.mod_eq_of_lt hn]
  have hvlt : to_monty_64 n < P := to_monty_64_lt n
  obtain ⟨hlt, hcast⟩ := monty_reduce_correct (to_monty_64 n)
    (lt_trans hvlt (by norm_num [P]))
  refine natCast_inj_of_lt hlt (Nat.mod_lt _ (by norm_num [P])) ?_
  apply mul_right_cancel₀ RZ_ne_zero
  show ((monty_reduce (to_monty_64 n) : Nat) : ZMod P) * RZ = _
  rw [hcast, ZMod.natCast_mod, hv, ZMod.natCast_mod]
  rw [RZ, MONTY_BITS]
  push_cast
  ring

/-- The canonical residue of `from_wrapped_u32 n` is `n mod P`. -/
theorem from_wrapped_u32_canonical (n : Nat) (hn : n < 2 ^ 32) :
    as_canonical_u32 (from_wrapped_u32 n) = n % P := by
  have hv : to_monty n = n * 2 ^ 31 % P := by
    unfold to_monty MONTY_BITS
    rw [Nat.mod_eq_of_lt hn]
  have hvlt : to_monty n < P := to_monty_lt n
  obtain ⟨hlt, hcast⟩ := monty_reduce_correct (to_monty n)
    (lt_trans hvlt (by norm_num [P]))
  refine natCast_inj_of_lt hlt (Nat.mod_lt _ (by norm_num [P])) ?_
  apply mul_right_cancel₀ RZ_ne_zero
  show ((monty_reduce (to_monty n) : Nat) : ZMod P) * RZ = _
  rw [hcast, ZMod.natCast_mod, hv, ZMod.natCast_mod]
  rw [RZ, MONTY_BITS]
  push_cast
  ring

theorem from_canonical_u32_canonical (n : Nat) (hn : n < P) :
    as_canonical_u32 (from_canonical_u32 n) = n := by
  rw [show from_canonical_u32 n = from_wrapped_u32 n from rfl,
    from_wrapped_u32_canonical n (lt_u32_of_lt_P hn), Nat.mod_eq_of_lt hn]

theorem toField_from_canonical (n : Nat) (hn : n < P) :
    toField (from_canonical_u32 n) = ((n : Nat) : ZMod P) := by
  show ((from_monty (from_canonical_u32 n).value : Nat) : ZMod P) = _
  rw [show from_monty (from_canonical_u32 n).value
      = as_canonical_u32 (from_canonical_u32 n) from rfl,
    from_canonical_u32_canonical n hn]

/-! ## Powers -/

theorem bbPow_value_lt (a : BabyBear) (ha : a.value < P) (n : Nat) :
    (bbPow a n).value < P := by
  induction n with
  | zero => show ONE.value < P; decide
  | succ n ih => exact mul_value_lt a (bbPow a n) ha ih

theorem toField_bbPow (a : BabyBear) (ha : a.value < P) (n : Nat) :
    toField (bbPow a n) = toField a ^ n := by
  induction n with
  | zero => show toField ONE = _; rw [toField_ONE, pow_zero]
  | succ n ih =>
    show toField (mul a (bbPow a n)) = _
    rw [toField_mul a (bbPow a n) ha (bbPow_value_lt a ha n), ih, ← pow_succ']

theorem exp_power_of_2_value_lt (a : BabyBear) (ha : a.value < P) (k : Nat) :
    (exp_power_of_2 a k).value < P := by
  induction k with
  | zero => exact ha
  | succ k ih => exact mul_value_lt _ _ ih ih

theorem toField_exp_power_of_2 (a : BabyBear) (ha : a.value < P) (k : Nat) :
    toField (exp_power_of_2 a k) = toField a ^ 2 ^ k := by
  induction k with
  | zero => rw [show (2 : Nat) ^ 0 = 1 from rfl, pow_one]; rfl
  | succ k ih =>
    show toField (mul (exp_power_of_2 a k) (exp_power_of_2 a k)) = _
    rw [toField_mul _ _ (exp_power_of_2_value_lt a ha k) (exp_power_of_2_value_lt a ha k),
      ih, ← pow_add]
    congr 1
    have h2 : 2 ^ (k + 1) = 2 * 2 ^ k := by rw [pow_succ]; ring
    omega

theorem toField_ne_zero (a : BabyBear) (ha : a.value < P) (hz : a.value ≠ 0) :
    toField a ≠ 0 := by
  intro h
  have hR := toField_mul_RZ a (lt_u32_of_lt_P ha)
  rw [h, zero_mul] at hR
  have : a.value = 0 := by
    refine natCast_inj_of_lt ha (by norm_num [P]) ?_
    rw [← hR, Nat.cast_zero]
  exact hz this

/-- One multiplication step of the `try_inverse` addition chain. -/
theorem mul_pow_step {x y : BabyBear} {t : ZMod P} {m n : Nat}
    (hx : x.value < P ∧ toField x = t ^ m) (hy : y.value < P ∧ toField y = t ^ n) :
    (mul x y).value < P ∧ toField (mul x y) = t ^ (m + n) :=
  ⟨mul_value_lt x y hx.1 hy.1, by
    rw [toField_mul x y hx.1 hy.1, hx.2, hy.2, ← pow_add]⟩

/-- One repeated-squaring step of the `try_inverse` addition chain. -/
theorem exp2_pow_step {x : BabyBear} {t : ZMod P} {m : Nat} (k : Nat)
    (hx : x.value < P ∧ toField x = t ^ m) :
    (exp_power_of_2 x k).value < P ∧ toField (exp_power_of_2 x k) = t ^ (m * 2 ^ k) :=
  ⟨exp_power_of_2_value_lt x hx.1 k, by
    rw [toField_exp_power_of_2 x hx.1 k, hx.2, ← pow_mul]⟩

/-- `mul_pow_step` with the target exponent given by a literal equation, so
that no large exponent is ever compared definitionally. -/
theorem mul_pow_step' {x y : BabyBear} {t : ZMod P} {m n k : Nat}
    (hk : m + n = k) (hx : x.value < P ∧ toField x = t ^ m)
    (hy : y.value < P ∧ toField y = t ^ n) :
    (mul x y).value < P ∧ toField (mul x y) = t ^ k := by
  obtain ⟨hl, hf⟩ := mul_pow_step hx hy
  exact ⟨hl, by rw [hf, hk]⟩

/-- `exp2_pow_step` with the target exponent given by a literal equation. -/
theorem exp2_pow_step' {x : BabyBear} {t : ZMod P} {m j : Nat} (k : Nat)
    (hk : m * 2 ^ k = j) (hx : x.value < P ∧ toField x = t ^ m) :
    (exp_power_of_2 x k).value < P ∧ toField (exp_power_of_2 x k) = t ^ j := by
  obtain ⟨hl, hf⟩ := exp2_pow_step k hx
  exact ⟨hl, by rw [hf, hk]⟩

theorem try_inverse_none_iff (a : BabyBear) : try_inverse a = none ↔ a.value = 0 := by
  unfold try_inverse
  by_cases h : a.value = 0
  · rw [if_pos (by simp [is_zero, h])]
    simp [h]
  · rw [if_neg (by simp [is_zero, h])]
    simp [h]

/-- For nonzero `a`, the addition chain of `try_inverse` produces a word below
`P` whose canonical residue is `a^(P-2)`. -/
theorem try_inverse_some_spec (a : BabyBear) (ha : a.value < P) (hz : a.value ≠ 0) :
    ∃ b, try_inverse a = some b ∧ b.value < P ∧ toField b = toField a ^ (P - 2) := by
  unfold try_inverse
  rw [if_neg (by simp [is_zero, hz])]
  set t := toField a with ht
  have h1 : a.value < P ∧ toField a = t ^ 1 := ⟨ha, (pow_one t).symm⟩
  let x2 := square a
  have h2 : x2.value < P ∧ toField x2 = t ^ 2 := mul_pow_step' (by norm_num) h1 h1
  let x3 := mul a x2
  have h3 : x3.value < P ∧ toField x3 = t ^ 3 := mul_pow_step' (by norm_num) h1 h2
  let x6 := mul x3 x3
  have h6 : x6.value < P ∧ toField x6 = t ^ 6 := mul_pow_step' (by norm_num) h3 h3
  let x7 := mul a x6
  have h7 : x7.value < P ∧ toField x7 = t ^ 7 := mul_pow_step' (by norm_num) h1 h6
  let x56 := exp_power_of_2 x7 3
  have h56 : x56.value < P ∧ toField x56 = t ^ 56 :=
    exp2_pow_step' 3 (by norm_num) h7
  let x63 := mul x7 x56
  have h63 : x63.value < P ∧ toField x63 = t ^ 63 := mul_pow_step' (by norm_num) h7 h56
  let x4032 := exp_power_of_2 x63 6
  have h4032 : x4032.value < P ∧ toField x4032 = t ^ 4032 :=
    exp2_pow_step' 6 (by norm_num) h63
  let x4095 := mul x63 x4032
  have h4095 : x4095.value < P ∧ toField x4095 = t ^ 4095 :=
    mul_pow_step' (by norm_num) h63 h4032
  let x8190 := square x4095
  have h8190 : x8190.value < P ∧ toField x8190 = t ^ 8190 :=
    mul_pow_step' (by norm_num) h4095 h4095
  let x12285 := mul x4095 x8190
  have h12285 : x12285.value < P ∧ toField x12285 = t ^ 12285 :=
    mul_pow_step' (by norm_num) h4095 h8190
  let x24570 := square x12285
  have h24570 : x24570.value < P ∧ toField x24570 = t ^ 24570 :=
    mul_pow_step' (by norm_num) h12285 h12285
  let x28665 := mul x4095 x24570
  have h28665 : x28665.value < P ∧ toField x28665 = t ^ 28665 :=
    mul_pow_step' (by norm_num) h4095 h24570
  let x28672 := mul x7 x28665
  have h28672 : x28672.value < P ∧ toField x28672 = t ^ 28672 :=
    mul_pow_step' (by norm_num) h7 h28665
  let x32767 := mul x4095 x28672
  have h32767 : x32767.value < P ∧ toField x32767 = t ^ 32767 :=
    mul_pow_step' (by norm_num) h4095 h28672
  let x61439 := mul x28672 x32767
  have h61439 : x61439.value < P ∧ toField x61439 = t ^ 61439 :=
    mul_pow_step' (by norm_num) h28672 h32767
  let x2013233152 := exp_power_of_2 x61439 15
  have h2013233152 : x2013233152.value < P ∧ toField x2013233152 = t ^ 2013233152 :=
    exp2_pow_step' 15 (by norm_num) h61439
  let xfin := mul x32767 x2013233152
  have hfin : xfin.value < P ∧ toField xfin = t ^ (P - 2) :=
    mul_pow_step' (by norm_num [P]) h32767 h2013233152
  exact ⟨xfin, rfl, hfin.1, hfin.2⟩

/-- For nonzero `a` below `P`, the chain output multiplies with `a` to `ONE`
(Fermat: `t * t^(P-2) = t^(P-1) = 1`). -/
theorem try_inverse_mul_eq_one (a b : BabyBear) (ha : a.value < P)
    (hz : a.value ≠ 0) (hb : try_inverse a = some b) : mul a b = ONE := by
  obtain ⟨c, hc, hclt, hcf⟩ := try_inverse_some_spec a ha hz
  rw [hb] at hc
  obtain rfl : b = c := by injection hc
  have htne : toField a ≠ 0 := toField_ne_zero a ha hz
  have hmul : toField (mul a b) = 1 := by
    rw [toField_mul a b ha hclt, hcf, ← pow_succ']
    rw [show P - 2 + 1 = P - 1 from by decide]
    exact ZMod.pow_card_sub_one_eq_one htne
  refine toField_inj (mul a b) ONE (mul_value_lt a b ha hclt) (by decide) ?_
  rw [hmul, toField_ONE]

theorem foldl_add_value_lt (xs : List BabyBear) :
    ∀ acc : BabyBear, acc.value < P → (∀ x ∈ xs, x.value < P) →
      (xs.foldl add acc).value < P := by
  induction xs with
  | nil => intro acc hacc _; exact hacc
  | cons y ys ih =>
    intro acc hacc hall
    exact ih (add acc y) (add_spec acc y hacc (hall y (by simp))).1
      (fun x hx => hall x (by simp [hx]))

theorem foldl_mul_value_lt (xs : List BabyBear) :
    ∀ acc : BabyBear, acc.value < P → (∀ x ∈ xs, x.value < P) →
      (xs.foldl mul acc).value < P := by
  induction xs with
  | nil => intro acc hacc _; exact hacc
  | cons y ys ih =>
    intro acc hacc hall
    exact ih (mul acc y) (mul_value_lt acc y hacc (hall y (by simp)))
      (fun x hx => hall x (by simp [hx]))

theorem sumList_value_lt (l : List BabyBear) (hl : ∀ x ∈ l, x.value < P) :
    (sumList l).value < P := by
  cases l with
  | nil => show ZERO.value < P; decide
  | cons x xs =>
    exact foldl_add_value_lt xs x (hl x (by simp)) (fun y hy => hl y (by simp [hy]))

theorem prodList_value_lt (l : List BabyBear) (hl : ∀ x ∈ l, x.value < P) :
    (prodList l).value < P := by
  cases l with
  | nil => show ONE.value < P; decide
  | cons x xs =>
    exact foldl_mul_value_lt xs x (hl x (by simp)) (fun y hy => hl y (by simp [hy]))

theorem try_inverse_getD_lt (a : BabyBear) (ha : a.value < P) :
    ((try_inverse a).getD ZERO).value < P := by
  by_cases hz : a.value = 0
  · rw [(try_inverse_none_iff a).mpr hz]
    decide
  · obtain ⟨b, hb, hlt, _⟩ := try_inverse_some_spec a ha hz
    rw [hb]
    exact hlt

/-- C5: `try_inverse(a)` returns `None` exactly when `a` is the additive
identity; for every nonzero `a` it returns `Some(b)` where `b` is the
canonical encoding of `a^(P-2)` (computed by the fixed addition chain) and
`a * b` equals the multiplicative identity. -/
theorem c5_try_inverse (a : BabyBear) (ha : a.value < P) :
    (try_inverse a = none ↔ a = ZERO) ∧
    (a ≠ ZERO → ∃ b, try_inverse a = some b ∧ b.value < P ∧
      toField b = toField a ^ (P - 2) ∧ mul a b = ONE) := by
  have hval : a = ZERO ↔ a.value = 0 := by
    cases a
    simp [ZERO]
  constructor
  · rw [try_inverse_none_iff, hval]
  · intro hne
    have hz : a.value ≠ 0 := fun h0 => hne (hval.mpr h0)
    obtain ⟨b, hb, hlt, hf⟩ := try_inverse_some_spec a ha hz
    exact ⟨b, hb, hlt, hf, try_inverse_mul_eq_one a b ha hz hb⟩

theorem c5_try_inverse_witness :
    (from_canonical_u32 2).value < P ∧
    ((try_inverse (from_canonical_u32 2) = none ↔ from_canonical_u32 2 = ZERO) ∧
    (from_canonical_u32 2 ≠ ZERO → ∃ b, try_inverse (from_canonical_u32 2) = some b ∧
      b.value < P ∧ toField b = toField (from_canonical_u32 2) ^ (P - 2) ∧
      mul (from_canonical_u32 2) b = ONE)) :=
  ⟨by decide, c5_try_inverse (from_canonical_u32 2) (by decide)⟩

/-- C6: every word produced by the public operations stays in `[0, P)`; `add`
subtracts `P` at most once from the raw sum, and `sub`/`neg` add `P` back
exactly when the wrapping difference underflowed. -/
theorem c6_word_invariant (a b : BabyBear) (n m : Nat) (l : List BabyBear)
    (ha : a.value < P) (hb : b.value < P) (hl : ∀ x ∈ l, x.value < P) :
    (add a b).value < P ∧ (sub a b).value < P ∧ (neg a).value < P ∧
    (mul a b).value < P ∧ (from_canonical_u32 n).value < P ∧
    (from_wrapped_u32 n).value < P ∧ (from_wrapped_u64 m).value < P ∧
    ((try_inverse a).getD ZERO).value < P ∧
    (sumList l).value < P ∧ (prodList l).value < P ∧
    (add a b).value
      = (if P ≤ a.value + b.value then a.value + b.value - P else a.value + b.value) ∧
    (sub a b).value
      = (if a.value < b.value then a.value + P - b.value else a.value - b.value) ∧
    (neg a).value = (if 0 < a.value then P - a.value else 0) :=
  ⟨(add_spec a b ha hb).1, (sub_spec a b ha hb).1, (neg_spec a ha).1,
    mul_value_lt a b ha hb, to_monty_lt n, to_monty_lt n, to_monty_64_lt m,
    try_inverse_getD_lt a ha, sumList_value_lt l hl, prodList_value_lt l hl,
    (add_spec a b ha hb).2.2, (sub_spec a b ha hb).2.2, (neg_spec a ha).2.2⟩

theorem c6_word_invariant_witness :
    (⟨5⟩ : BabyBear).value < P ∧ (⟨7⟩ : BabyBear).value < P ∧
    (∀ x ∈ [(⟨1⟩ : BabyBear), ⟨2013265920⟩], x.value < P) ∧
    ((add ⟨5⟩ ⟨7⟩).value < P ∧ (sub ⟨5⟩ ⟨7⟩).value < P ∧ (neg ⟨5⟩).value < P ∧
    (mul ⟨5⟩ ⟨7⟩).value < P ∧ (from_canonical_u32 100).value < P ∧
    (from_wrapped_u32 100).value < P ∧ (from_wrapped_u64 (2 ^ 40)).value < P ∧
    ((try_inverse ⟨5⟩).getD ZERO).value < P ∧
    (sumList [⟨1⟩, ⟨2013265920⟩]).value < P ∧
    (prodList [⟨1⟩, ⟨2013265920⟩]).value < P ∧
    (add ⟨5⟩ ⟨7⟩).value = (if P ≤ 5 + 7 then 5 + 7 - P else 5 + 7) ∧
    (sub ⟨5⟩ ⟨7⟩).value = (if 5 < 7 then 5 + P - 7 else 5 - 7) ∧
    (neg ⟨5⟩).value = (if 0 < 5 then P - 5 else 0)) :=
  ⟨by decide, by decide, by decide,
    c6_word_invariant ⟨5⟩ ⟨7⟩ 100 (2 ^ 40) [⟨1⟩, ⟨2013265920⟩]
      (by decide) (by decide) (by decide)⟩

/-- C7: the canonical value of `from_wrapped_u64 n` is `n mod P` for every
64-bit `n` (likewise `from_wrapped_u32` for 32-bit inputs), and wrapping the
modulus itself yields the additive identity. -/
theorem c7_from_wrapped (n m : Nat) (hn : n < 2 ^ 64) (hm : m < 2 ^ 32) :
    as_canonical_u32 (from_wrapped_u64 n) = n % P ∧
    as_canonical_u32 (from_wrapped_u32 m) = m % P ∧
    from_wrapped_u32 P = ZERO ∧ from_wrapped_u64 P = ZERO :=
  ⟨from_wrapped_u64_canonical n hn, from_wrapped_u32_canonical m hm,
    by decide, by decide⟩

theorem power_of_two_generator_value_lt : power_of_two_generator.value < P :=
  to_monty_lt _

theorem toField_g : toField power_of_two_generator = ((0x1a427a41 : Nat) : ZMod P) :=
  toField_from_canonical 0x1a427a41 (by decide)

theorem g_pow_two_27 : toField power_of_two_generator ^ 2 ^ 27 = 1 := by
  rw [toField_g, zmod_natCast_pow_eq,
    show powMod P 0x1a427a41 (2 ^ 27) = 1 from by decide, Nat.cast_one]

theorem g_pow_two_26 : toField power_of_two_generator ^ 2 ^ 26 ≠ 1 := by
  rw [toField_g, zmod_natCast_pow_eq]
  intro h
  have h1 : powMod P 0x1a427a41 (2 ^ 26) = 1 := by
    refine natCast_inj_of_lt (by decide) (by decide) ?_
    rw [h, Nat.cast_one]
  exact absurd h1 (by decide)

theorem two_adic_generator_value_lt (k : Nat) : (two_adic_generator k).value < P :=
  exp_power_of_2_value_lt _ power_of_two_generator_value_lt _

theorem toField_two_adic_generator (k : Nat) :
    toField (two_adic_generator k) = toField power_of_two_generator ^ 2 ^ (27 - k) :=
  toField_exp_power_of_2 _ power_of_two_generator_value_lt _

/-- C8: the exposed generator `g` (canonical encoding `0x1a427a41`) has exact
order `2^27`, and raising it to the power `2^(27-k)` yields a generator of the
order-`2^k` subgroup for every `k ≤ 27`. -/
theorem c8_two_adic (k : Nat) (hk : k ≤ 27) :
    bbPow power_of_two_generator (2 ^ 27) = ONE ∧
    bbPow power_of_two_generator (2 ^ 26) ≠ ONE ∧
    two_adic_generator k = exp_power_of_2 power_of_two_generator (27 - k) ∧
    bbPow (two_adic_generator k) (2 ^ k) = ONE ∧
    (1 ≤ k → bbPow (two_adic_generator k) (2 ^ (k - 1)) ≠ ONE) := by
  refine ⟨?_, ?_, rfl, ?_, ?_⟩
  · refine toField_inj _ _ (bbPow_value_lt _ power_of_two_generator_value_lt _)
      (by decide) ?_
    rw [toField_bbPow _ power_of_two_generator_value_lt, toField_ONE, g_pow_two_27]
  · intro h
    have hf := congrArg toField h
    rw [toField_bbPow _ power_of_two_generator_value_lt, toField_ONE] at hf
    exact g_pow_two_26 hf
  · refine toField_inj _ _ (bbPow_value_lt _ (two_adic_generator_value_lt k) _)
      (by decide) ?_
    rw [toField_bbPow _ (two_adic_generator_value_lt k), toField_ONE,
      toField_two_adic_generator, ← pow_mul, ← pow_add,
      show 27 - k + k = 27 from by omega, g_pow_two_27]
  · intro hk1 h
    have hf := congrArg toField h
    rw [toField_bbPow _ (two_adic_generator_value_lt k), toField_ONE,
      toField_two_adic_generator, ← pow_mul, ← pow_add,
      show 27 - k + (k - 1) = 26 from by omega] at hf
    exact g_pow_two_26 hf

theorem c8_two_adic_witness :
    (3 : Nat) ≤ 27 ∧
    (bbPow power_of_two_generator (2 ^ 27) = ONE ∧
    bbPow power_of_two_generator (2 ^ 26) ≠ ONE ∧
    two_adic_generator 3 = exp_power_of_2 power_of_two_generator (27 - 3) ∧
    bbPow (two_adic_generator 3) (2 ^ 3) = ONE ∧
    (1 ≤ 3 → bbPow (two_adic_generator 3) (2 ^ (3 - 1)) ≠ ONE)) :=
  ⟨by decide, c8_two_adic 3 (by decide)⟩

/-- C10: division by the additive identity yields no value (the `Div::div`
operator unwraps `try_inverse` and panics), while `try_inverse` itself signals
the absence as an `Option`; for a nonzero divisor a value is returned. -/
theorem c10_div_by_zero (a b : BabyBear) (hb : b.value < P) (hbz : b.value ≠ 0) :
    div a ZERO = none ∧ try_inverse ZERO = none ∧
    ∃ d, div a b = some d := by
  refine ⟨rfl, rfl, ?_⟩
  obtain ⟨c, hc, _, _⟩ := try_inverse_some_spec b hb hbz
  exact ⟨mul a c, by rw [div, hc]; rfl⟩

theorem c10_div_by_zero_witness :
    (⟨7⟩ : BabyBear).value < P ∧ (⟨7⟩ : BabyBear).value ≠ 0 ∧
    (div ⟨5⟩ ZERO = none ∧ try_inverse ZERO = none ∧
      ∃ d, div (⟨5⟩ : BabyBear) ⟨7⟩ = some d) :=
  ⟨by decide, by decide, c10_div_by_zero ⟨5⟩ ⟨7⟩ (by decide) (by decide)⟩

/-- Every word a successful sample can return is below `2^27`. -/
theorem sample_loop_value_lt (stream : Nat → Nat) :
    ∀ fuel i w, sample_loop stream i fuel = some w → w.value < 2 ^ 27 := by
  intro fuel
  induction fuel with
  | zero => intro i w h; exact absurd h (by simp [sample_loop])
  | succ fuel ih =>
    intro i w h
    unfold sample_loop at h
    by_cases hc : stream i % 2 ^ 32 % 0x8000000 < P
    · rw [if_pos hc] at h
      obtain rfl : (⟨stream i % 2 ^ 32 % 0x8000000⟩ : BabyBear) = w := by
        injection h
      exact Nat.mod_lt _ (by norm_num)
    · rw [if_neg hc] at h
      exact ih (i + 1) w h

/-- C2: the sampling loop masks each draw to 27 bits, so the `< P` rejection
test never fires, the first draw is always accepted, and no element whose
Montgomery word is `≥ 2^27` — in particular the canonical value `P - 1` — is
ever produced: the sample is not uniform over `[0, P)`. -/
theorem c2_sample_misses_residues (stream : Nat → Nat) (i fuel : Nat)
    (w : BabyBear) (h : sample_loop stream i fuel = some w) :
    w.value < 2 ^ 27 ∧ as_canonical_u32 w ≠ P - 1 ∧
    (∀ j f, sample_loop stream j (f + 1)
      = some ⟨stream j % 2 ^ 32 % 0x8000000⟩) := by
  have hlt := sample_loop_value_lt stream fuel i w h
  refine ⟨hlt, ?_, ?_⟩
  · intro hcan
    have hwP : w.value < P := lt_trans hlt (by norm_num [P])
    have hcast := (monty_reduce_correct w.value (by simp only [P] at *; omega)).2
    rw [show monty_reduce w.value = as_canonical_u32 w from rfl, hcan] at hcast
    have hconst : ((P - 1 : Nat) : ZMod P) * RZ = ((0x70000002 : Nat) : ZMod P) := by
      rw [RZ, ← Nat.cast_mul, ← ZMod.natCast_mod,
        show (P - 1) * 2 ^ MONTY_BITS % P = 0x70000002 from by decide]
    rw [hconst] at hcast
    have : (0x70000002 : Nat) = w.value :=
      natCast_inj_of_lt (by decide) hwP hcast
    omega
  · intro j f
    unfold sample_loop
    rw [if_pos (lt_trans (Nat.mod_lt _ (by norm_num)) (by norm_num [P]))]

theorem c2_sample_misses_residues_witness :
    sample_loop (fun _ => 0x70000002) 0 1 = some ⟨2⟩ ∧
    ((⟨2⟩ : BabyBear).value < 2 ^ 27 ∧ as_canonical_u32 ⟨2⟩ ≠ P - 1 ∧
    (∀ j f, sample_loop (fun _ => 0x70000002) j (f + 1)
      = some ⟨0x70000002 % 2 ^ 32 % 0x8000000⟩)) :=
  ⟨by decide, c2_sample_misses_residues (fun _ => 0x70000002) 0 1 ⟨2⟩ (by decide)⟩

theorem c7_from_wrapped_witness :
    (12345678901234567 : Nat) < 2 ^ 64 ∧ (305419896 : Nat) < 2 ^ 32 ∧
    (as_canonical_u32 (from_wrapped_u64 12345678901234567)
        = 12345678901234567 % P ∧
      as_canonical_u32 (from_wrapped_u32 305419896) = 305419896 % P ∧
      from_wrapped_u32 P = ZERO ∧ from_wrapped_u64 P = ZERO) :=
  ⟨by decide, by decide,
    c7_from_wrapped 12345678901234567 305419896 (by decide) (by decide)⟩

end BabyBearSpec

/-!
## The uni-plonk verifier (`src/uni-plonk/src/verifier.rs`)

The verifier is generic over the configuration: commitments, base-field
values, extension (challenge) values and the opening proof are type
parameters; the extension-field arithmetic, the PCS and the transcript
oracle are supplied as values, mirroring the `Config`/`Engine` traits.
-/

namespace UniPlonk

/-- Modelled from the spec: the error taxonomy of §7 (`VerificationError` is
declared in `p3_uni_stark`, not under `src/`): PCS rejection, malformed proof
shape, and final-check mismatch. -/
inductive VerificationError where
  | invalidOpeningArgument
  | malformedProof
  | finalCheckMismatch
deriving DecidableEq

/-- The `commitments` bundle of a `Proof`. -/
structure Commitments (Com : Type) where
  fixed : Com
  advice : Com
  multiset_f : Com
  quotient : Com

/-- The `opened_values` bundle of a `Proof`. -/
structure OpenedValues (F : Type) where
  fixed_local : List F
  fixed_next : List F
  advice_local : List F
  advice_next : List F
  multiset_f_local : List F
  multiset_f_next : List F
  quotient : List F

/-- The `Proof` consumed by `verify`; `multiset_sums` is carried as the value
sequence that `to_values` (not under `src/`) extracts from it. -/
structure Proof (Com F OP : Type) where
  commitments : Commitments Com
  opened_values : OpenedValues F
  opening_proof : OP
  multiset_sums : List F
  log_degree : Nat

/-- One transcript interaction of the challenger. -/
inductive TranscriptEvent (Com F : Type) where
  | observeCommit : Com → TranscriptEvent Com F
  | observeValues : List F → TranscriptEvent Com F
  | sampleExtChallenge : TranscriptEvent Com F

/-- The challenger: an event log plus a deterministic oracle deriving each
sampled challenge from everything absorbed so far. -/
structure Challenger (Com F EF : Type) where
  log : List (TranscriptEvent Com F)
  oracle : List (TranscriptEvent Com F) → EF

/-- `challenger.observe(commitment)`. -/
def observe {Com F EF : Type} (ch : Challenger Com F EF) (c : Com) :
    Challenger Com F EF :=
  { ch with log := ch.log ++ [.observeCommit c] }

/-- `challenger.observe_slice(values)`. -/
def observe_slice {Com F EF : Type} (ch : Challenger Com F EF) (vs : List F) :
    Challenger Com F EF :=
  { ch with log := ch.log ++ [.observeValues vs] }

/-- `challenger.sample_ext_element()`: the oracle value of the current log. -/
def sample_ext_element {Com F EF : Type} (ch : Challenger Com F EF) :
    EF × Challenger Com F EF :=
  (ch.oracle ch.log, { ch with log := ch.log ++ [.sampleExtChallenge] })

/-- The extension-field capability consumed by the verifier: arithmetic, the
monomial-basis constructor, multiplication by a base-field value, and
`exp_power_of_2`. -/
structure ExtOps (F EF : Type) where
  add : EF → EF → EF
  mul : EF → EF → EF
  zero : EF
  one : EF
  mulF : EF → F → EF
  monomial : Nat → EF
  exp_power_of_2 : EF → Nat → EF

/-- `.sum()` over extension values. -/
def sumEF {F EF : Type} (ops : ExtOps F EF) (l : List EF) : EF :=
  l.foldl ops.add ops.zero

/-- `zeta.powers()`: the `j`-th power of `zeta` (`j = 0` giving one). -/
def efPow {F EF : Type} (ops : ExtOps F EF) (z : EF) : Nat → EF
  | 0 => ops.one
  | n + 1 => ops.mul z (efPow ops z n)

/-- `slice.chunks(D)`: split into chunks of length `D`, the last possibly
short; fuel-driven so that it computes by kernel reduction (`D = 0`, a panic
in Rust, is never reached: `D` is the extension degree). -/
def toChunksAux {α : Type} (D : Nat) : Nat → List α → List (List α)
  | _, [] => []
  | 0, _ :: _ => []
  | fuel + 1, x :: xs => (x :: xs).take D :: toChunksAux D fuel ((x :: xs).drop D)

/-- `slice.chunks(D)` with enough fuel. -/
def toChunks {α : Type} (D : Nat) (l : List α) : List (List α) :=
  toChunksAux D l.length l

/-- Fuel-driven base-2 logarithm (`log2fuel n n = Nat.log2 n`). -/
def log2fuel : Nat → Nat → Nat
  | 0, _ => 0
  | fuel + 1, n => if n ≥ 2 then log2fuel fuel (n / 2) + 1 else 0

/-- Reverse the low `b` bits of `i`. -/
def bitRev : Nat → Nat → Nat
  | 0, _ => 0
  | b + 1, i => i % 2 * 2 ^ b + bitRev b (i / 2)

/-- Modelled from the spec: `reverse_slice_index_bits` (`p3_dft`, not under
`src/`) permutes a power-of-two-length slice by bit-reversed index order. -/
def reverse_slice_index_bits {α : Type} (l : List α) : List α :=
  (List.range l.length).filterMap
    (fun i => l.get? (bitRev (log2fuel l.length l.length) i))

/-- The quotient reconstruction block of `verify`: coefficients from chunks of
length `D` via `Σ_i monomial(i) * chunk[i]`, bit-reversed, then recombined as
`Σ_j zeta^j * part[j]`. -/
def reconstruct_quotient {F EF : Type} (ops : ExtOps F EF) (D : Nat) (zeta : EF)
    (quotient : List F) : EF :=
  let parts := (toChunks D quotient).map (fun chunk =>
    sumEF ops (chunk.enum.map (fun ic => ops.mulF (ops.monomial ic.1) ic.2)))
  let parts2 := reverse_slice_index_bits parts
  sumEF ops (parts2.enum.map (fun jp => ops.mul (efPow ops zeta jp.1) jp.2))

/-- Everything `verify` produces, with the transcript log, the PCS request and
the sampled challenges exposed for inspection. -/
structure VerifyOutcome (Com F EF : Type) where
  result : Except VerificationError Unit
  challenger : Challenger Com F EF
  commits_and_points : List (Com × List EF)
  pcs_values : List (List (List (List F)))
  gamma : EF
  alpha : EF
  zeta : EF
  quotient_value : EF

/-- `verify` from `src/uni-plonk/src/verifier.rs`: the transcript protocol,
the multi-batch PCS request, the quotient reconstruction, and the final
`Ok(())` (the comparison against a constraint-derived expectation is left as
`// TODO finalize verifier` in the source). -/
def verify {Com F EF OP : Type} (ops : ExtOps F EF)
    (D log_quotient_degree : Nat) (two_adic_generator : Nat → F)
    (pcs_verify : List (Com × List EF) → List (List (List (List F))) → OP →
      Challenger Com F EF → Bool)
    (challenger : Challenger Com F EF) (proof : Proof Com F OP)
    (instVals : List F) : VerifyOutcome Com F EF :=
  let g_subgroup := two_adic_generator proof.log_degree
  let ch1 := observe challenger proof.commitments.fixed
  let ch2 := observe ch1 proof.commitments.advice
  let ch3 := observe_slice ch2 instVals
  let gammaCh := sample_ext_element ch3
  let ch4 := gammaCh.2
  let ch5 := observe ch4 proof.commitments.multiset_f
  let ch6 := observe_slice ch5 proof.multiset_sums
  let alphaCh := sample_ext_element ch6
  let ch7 := alphaCh.2
  let ch8 := observe ch7 proof.commitments.quotient
  let zetaCh := sample_ext_element ch8
  let ch9 := zetaCh.2
  let zeta := zetaCh.1
  let local_and_next := [zeta, ops.mulF zeta g_subgroup]
  let commits_and_points := [
    (proof.commitments.fixed, local_and_next),
    (proof.commitments.advice, local_and_next),
    (proof.commitments.multiset_f, local_and_next),
    (proof.commitments.quotient, [ops.exp_power_of_2 zeta log_quotient_degree])]
  let values := [
    [[proof.opened_values.fixed_local, proof.opened_values.fixed_next]],
    [[proof.opened_values.advice_local, proof.opened_values.advice_next]],
    [[proof.opened_values.multiset_f_local, proof.opened_values.multiset_f_next]],
    [[proof.opened_values.quotient]]]
  let pcs_ok := pcs_verify commits_and_points values proof.opening_proof ch9
  { result := if pcs_ok then Except.ok () else Except.error .invalidOpeningArgument
    challenger := ch9
    commits_and_points := commits_and_points
    pcs_values := values
    gamma := gammaCh.1
    alpha := alphaCh.1
    zeta := zeta
    quotient_value := reconstruct_quotient ops D zeta proof.opened_values.quotient }

/-- C3: before the PCS call, `verify` executes exactly the nine transcript
interactions in the protocol order — fixed, advice, instance, sample gamma,
multiset_f, multiset_sums, sample alpha, quotient, sample zeta — and each
challenge is derived from precisely the log absorbed up to its sampling
point. -/
theorem c3_transcript_order {Com F EF OP : Type} (ops : ExtOps F EF)
    (D L : Nat) (gen : Nat → F)
    (pcs : List (Com × List EF) → List (List (List (List F))) → OP →
      Challenger Com F EF → Bool)
    (ch : Challenger Com F EF) (proof : Proof Com F OP) (instVals : List F) :
    (verify ops D L gen pcs ch proof instVals).challenger.log =
      ch.log ++ [.observeCommit proof.commitments.fixed,
        .observeCommit proof.commitments.advice,
        .observeValues instVals,
        .sampleExtChallenge,
        .observeCommit proof.commitments.multiset_f,
        .observeValues proof.multiset_sums,
        .sampleExtChallenge,
        .observeCommit proof.commitments.quotient,
        .sampleExtChallenge] ∧
    (verify ops D L gen pcs ch proof instVals).gamma =
      ch.oracle (ch.log ++ [.observeCommit proof.commitments.fixed,
        .observeCommit proof.commitments.advice,
        .observeValues instVals]) ∧
    (verify ops D L gen pcs ch proof instVals).alpha =
      ch.oracle (ch.log ++ [.observeCommit proof.commitments.fixed,
        .observeCommit proof.commitments.advice,
        .observeValues instVals,
        .sampleExtChallenge,
        .observeCommit proof.commitments.multiset_f,
        .observeValues proof.multiset_sums]) ∧
    (verify ops D L gen pcs ch proof instVals).zeta =
      ch.oracle (ch.log ++ [.observeCommit proof.commitments.fixed,
        .observeCommit proof.commitments.advice,
        .observeValues instVals,
        .sampleExtChallenge,
        .observeCommit proof.commitments.multiset_f,
        .observeValues proof.multiset_sums,
        .sampleExtChallenge,
        .observeCommit proof.commitments.quotient]) := by
  refine ⟨?_, ?_, ?_, ?_⟩ <;>
    simp [verify, observe, observe_slice, sample_ext_element]

/-- C9: the PCS receives one multi-batch request pairing the fixed, advice and
multiset_f commitments with exactly the points `{zeta, zeta * g}` and the
quotient commitment with exactly the single point `zeta^(2^L)`, together with
the proof's claimed opened values. -/
theorem c9_pcs_request {Com F EF OP : Type} (ops : ExtOps F EF)
    (D L : Nat) (gen : Nat → F)
    (pcs : List (Com × List EF) → List (List (List (List F))) → OP →
      Challenger Com F EF → Bool)
    (ch : Challenger Com F EF) (proof : Proof Com F OP) (instVals : List F) :
    (verify ops D L gen pcs ch proof instVals).commits_and_points =
      [(proof.commitments.fixed,
          [(verify ops D L gen pcs ch proof instVals).zeta,
           ops.mulF (verify ops D L gen pcs ch proof instVals).zeta
             (gen proof.log_degree)]),
       (proof.commitments.advice,
          [(verify ops D L gen pcs ch proof instVals).zeta,
           ops.mulF (verify ops D L gen pcs ch proof instVals).zeta
             (gen proof.log_degree)]),
       (proof.commitments.multiset_f,
          [(verify ops D L gen pcs ch proof instVals).zeta,
           ops.mulF (verify ops D L gen pcs ch proof instVals).zeta
             (gen proof.log_degree)]),
       (proof.commitments.quotient,
          [ops.exp_power_of_2 (verify ops D L gen pcs ch proof instVals).zeta L])] ∧
    (verify ops D L gen pcs ch proof instVals).pcs_values =
      [[[proof.opened_values.fixed_local, proof.opened_values.fixed_next]],
       [[proof.opened_values.advice_local, proof.opened_values.advice_next]],
       [[proof.opened_values.multiset_f_local, proof.opened_values.multiset_f_next]],
       [[proof.opened_values.quotient]]] :=
  ⟨rfl, rfl⟩

/-! ### A concrete instantiation, for evaluating `verify` on explicit proofs -/

/-- Extension arithmetic instantiated on `Nat` (degree-irrelevant; used only
to evaluate the control flow of `verify` on concrete inputs). -/
def natOps : ExtOps Nat Nat where
  add := Nat.add
  mul := Nat.mul
  zero := 0
  one := 1
  mulF := Nat.mul
  monomial := fun _ => 1
  exp_power_of_2 := fun z k => z ^ 2 ^ k

/-- A PCS that accepts every request. -/
def acceptAllPcs : List (Nat × List Nat) → List (List (List (List Nat))) → Unit →
    Challenger Nat Nat Nat → Bool := fun _ _ _ _ => true

/-- A challenger with an empty log and an all-zero oracle. -/
def zeroChallenger : Challenger Nat Nat Nat := { log := [], oracle := fun _ => 0 }

/-- A proof whose opened quotient values reconstruct to 0. -/
def c1Proof : Proof Nat Nat Unit where
  commitments := { fixed := 10, advice := 11, multiset_f := 12, quotient := 13 }
  opened_values :=
    { fixed_local := [0], fixed_next := [0], advice_local := [0], advice_next := [0]
      multiset_f_local := [0], multiset_f_next := [0], quotient := [0, 0] }
  opening_proof := ()
  multiset_sums := [0]
  log_degree := 1

/-- A proof with a malformed shape: a single opened quotient value although the
extension degree is 2 (so the chunk count and arity are wrong). -/
def c4Proof : Proof Nat Nat Unit where
  commitments := { fixed := 10, advice := 11, multiset_f := 12, quotient := 13 }
  opened_values :=
    { fixed_local := [0], fixed_next := [0], advice_local := [0], advice_next := [0]
      multiset_f_local := [0], multiset_f_next := [0], quotient := [5] }
  opening_proof := ()
  multiset_sums := [0]
  log_degree := 1

/-- C1 (refuted as stated): once the PCS accepts, `verify` returns `Ok(())`
no matter what the reconstructed quotient value is — here it reconstructs 0,
which differs from any nonzero constraint-derived expectation such as 1, yet
verification accepts; the comparison mandated by the spec is absent
(`// TODO finalize verifier`). -/
theorem c1_no_final_check :
    (verify natOps 2 1 (fun _ => 1) acceptAllPcs zeroChallenger c1Proof [0]).result
      = Except.ok () ∧
    (verify natOps 2 1 (fun _ => 1) acceptAllPcs zeroChallenger c1Proof
        [0]).quotient_value = 0 ∧
    (0 : Nat) ≠ 1 ∧
    (∀ _expected : Nat,
      (verify natOps 2 1 (fun _ => 1) acceptAllPcs zeroChallenger c1Proof
        [0]).result = Except.ok ()) :=
  ⟨rfl, by decide, by decide, fun _ => rfl⟩

/-- C4 (refuted as stated): `verify` performs no shape validation: on a proof
whose opened quotient arity is wrong for the extension degree it still reaches
the PCS and returns `Ok(())`, never a distinct malformed-proof error. -/
theorem c4_no_shape_check :
    (verify natOps 2 1 (fun _ => 1) acceptAllPcs zeroChallenger c4Proof
        [0, 0, 0]).result = Except.ok () ∧
    (verify natOps 2 1 (fun _ => 1) acceptAllPcs zeroChallenger c4Proof
        [0, 0, 0]).result ≠ Except.error VerificationError.malformedProof := by
  refine ⟨rfl, ?_⟩
  intro h
  rw [show (verify natOps 2 1 (fun _ => 1) acceptAllPcs zeroChallenger c4Proof
    [0, 0, 0]).result = Except.ok () from rfl] at h
  exact Except.noConfusion h

end UniPlonk
